import Mathlib

/-!
Verification development for the Predict_Protein2D repository.

The Go sources are shallowly embedded: `float64` scores become exact
rationals (`ℚ`), the package-global `SEQUENCE` becomes an explicit
`seq : List Char` argument threaded through every function that reads it,
and Go slices of runes become `List Char`.  Unbounded `for` loops whose
iteration counts are bounded by an integer measure are rendered as
structural recursion on a fuel argument initialised to that exact bound.
-/

namespace Protein2D

/-- Region from chou_fasman/datatype.go: half-open interval of sequence
positions with Go `int` fields. -/
structure Region where
  Start : Int
  End : Int
deriving DecidableEq

/-- Helix (alpha) propensity table from the classical variant (part_002). -/
def alphaParam : Char → Option ℚ := fun c =>
  List.lookup c
    [('A', 142/100), ('R', 98/100), ('N', 67/100), ('D', 101/100), ('C', 70/100),
     ('Q', 111/100), ('E', 151/100), ('G', 57/100), ('H', 100/100), ('I', 108/100),
     ('L', 121/100), ('K', 116/100), ('M', 145/100), ('F', 113/100), ('P', 57/100),
     ('S', 77/100), ('T', 83/100), ('W', 108/100), ('Y', 69/100), ('V', 106/100),
     ('X', 100/100)]

/-- Strand (beta) propensity table from the classical variant (part_002). -/
def betaParam : Char → Option ℚ := fun c =>
  List.lookup c
    [('A', 83/100), ('R', 93/100), ('N', 89/100), ('D', 54/100), ('C', 119/100),
     ('Q', 110/100), ('E', 37/100), ('G', 75/100), ('H', 87/100), ('I', 160/100),
     ('L', 130/100), ('K', 74/100), ('M', 105/100), ('F', 138/100), ('P', 55/100),
     ('S', 75/100), ('T', 119/100), ('W', 137/100), ('Y', 147/100), ('V', 170/100),
     ('X', 100/100)]

/-- ConformationParameter (part_003): table lookup with neutral default 1.0,
for unknown conformations as well as unmapped residues. -/
def ConformationParameter (residue : Char) (conformation : String) : ℚ :=
  match conformation with
  | "alpha" => (alphaParam residue).getD 1
  | "beta" => (betaParam residue).getD 1
  | _ => 1

/-- Go slice `seqRunes[a:b]` for `Int` bounds (exact for `0 ≤ a ≤ b ≤ len`,
the only ranges the program uses without panicking). -/
def sliceRunes (seq : List Char) (a b : Int) : List Char :=
  (seq.take b.toNat).drop a.toNat

/-- AverageParam (part_003): mean conformational parameter over a region,
0 for inverted / out-of-range regions.  `seq` models the global SEQUENCE. -/
def AverageParam (seq : List Char) (region : Region) (conformation : String) : ℚ :=
  if region.End ≤ region.Start ∨ region.Start < 0 ∨ (seq.length : Int) < region.End then 0
  else if (sliceRunes seq region.Start region.End).length = 0 then 0
  else ((sliceRunes seq region.Start region.End).map
          (fun r => ConformationParameter r conformation)).sum
        / (sliceRunes seq region.Start region.End).length

/-- ConformationHasHigestAverage (part_003): non-strict comparison for alpha,
strict for beta, false for any other conformation string. -/
def ConformationHasHigestAverage (seq : List Char) (region : Region)
    (conformation : String) : Bool :=
  if conformation = "alpha" then
    decide (AverageParam seq region "beta" ≤ AverageParam seq region conformation)
  else if conformation = "beta" then
    decide (AverageParam seq region "alpha" < AverageParam seq region conformation)
  else false

/-- IsNucleationRegion (part_003): at least `windowThreshold` residues of the
window score strictly above `minParam`, and the dominance test holds. -/
def IsNucleationRegion (seq : List Char) (region : Region) (conformation : String)
    (windowThreshold : ℕ) (minParam : ℚ) : Bool :=
  decide (windowThreshold ≤
      (sliceRunes seq region.Start region.End).countP (fun residue =>
        decide (minParam < ConformationParameter residue conformation))) &&
    ConformationHasHigestAverage seq region conformation

/-- FindNucleationRegion (part_003): slide a window of size `windowSize`
across the whole sequence (step 1), keeping the qualifying windows. -/
def FindNucleationRegion (seq : List Char) (windowThreshold windowSize : ℕ)
    (minParam : ℚ) (conformation : String) : List Region :=
  ((List.range (seq.length + 1 - windowSize)).map
      (fun (i : ℕ) => Region.mk (i : Int) ((i : Int) + (windowSize : Int)))).filter
    (fun region => IsNucleationRegion seq region conformation windowThreshold minParam)

/-- ShiftWindow (part_003): move a window one step toward the given terminus,
failing at the sequence boundary. -/
def ShiftWindow (seq : List Char) (window : Region) (terminus : Char) : Option Region :=
  if terminus = 'N' then
    if 0 ≤ window.Start - 1 then some ⟨window.Start - 1, window.End - 1⟩ else none
  else if terminus = 'C' then
    if window.End + 1 ≤ (seq.length : Int) then some ⟨window.Start + 1, window.End + 1⟩ else none
  else none

/-- N-terminal extension loop of ExtendedRegions (part_003): number of
successful one-step shifts toward position 0.  Each successful shift needs
`1 ≤ Start` and decreases `Start` by one, so fuel `Start.toNat` makes the
recursion exactly the Go `for` loop. -/
def extendNCount (seq : List Char) (conformation : String) : ℕ → Region → ℕ
  | 0, _ => 0
  | fuel + 1, shift =>
    if 0 ≤ shift.Start - 1 then
      if 1 ≤ AverageParam seq ⟨shift.Start - 1, shift.End - 1⟩ conformation then
        extendNCount seq conformation fuel ⟨shift.Start - 1, shift.End - 1⟩ + 1
      else 0
    else 0

/-- C-terminal extension loop of ExtendedRegions (part_003): number of
successful one-step shifts toward the sequence tail; fuel
`(len - End).toNat` is the exact bound of the Go loop. -/
def extendCCount (seq : List Char) (conformation : String) : ℕ → Region → ℕ
  | 0, _ => 0
  | fuel + 1, shift =>
    if shift.End + 1 ≤ (seq.length : Int) then
      if 1 ≤ AverageParam seq ⟨shift.Start + 1, shift.End + 1⟩ conformation then
        extendCCount seq conformation fuel ⟨shift.Start + 1, shift.End + 1⟩ + 1
      else 0
    else 0

/-- ExtendedRegions (part_003): bidirectional extension of every region
while the shifted 4-residue window average stays at or above 1.0. -/
def ExtendedRegions (seq : List Char) (regions : List Region)
    (conformation : String) : List Region :=
  regions.map fun reg =>
    let n := extendNCount seq conformation reg.Start.toNat ⟨reg.Start, reg.Start + 4⟩
    let c := extendCCount seq conformation ((seq.length : Int) - reg.End).toNat
      ⟨reg.End - 4, reg.End⟩
    ⟨reg.Start - n, reg.End + c⟩

/-- FilterExtendedRegions (part_003): keep regions whose whole-region average
parameter is at least the threshold (the Go early return for an empty input
list coincides with filtering the empty list). -/
def FilterExtendedRegions (seq : List Char) (regions : List Region)
    (conformation : String) (threshold : ℚ) : List Region :=
  regions.filter (fun reg => decide (threshold ≤ AverageParam seq reg conformation))

/-- TryMerging (part_003): combine two regions when `i.End >= j.Start`. -/
def TryMerging (i j : Region) : Option Region :=
  if j.Start ≤ i.End then some ⟨min i.Start j.Start, max i.End j.End⟩ else none

/-- The accumulation loop of MergeOverlappingRegions (part_003), running over
the start-sorted list with `current` as the region being grown. -/
def mergeLoop : Region → List Region → List Region
  | current, [] => [current]
  | current, next :: rest =>
    match TryMerging current next with
    | some merged => mergeLoop merged rest
    | none => current :: mergeLoop next rest

/-- MergeOverlappingRegions (part_003): sort by `Start` (Go `sort.Slice`;
ties in `Start` always merge symmetrically, so any sorted permutation gives
the same result as this stable sort) and fold the merge loop. -/
def MergeOverlappingRegions (regions : List Region) : List Region :=
  if regions.length < 2 then regions
  else
    match List.insertionSort (fun a b => a.Start ≤ b.Start) regions with
    | [] => []
    | current :: rest => mergeLoop current rest

/-- AreOverlapping (part_003): positional overlap of half-open intervals. -/
def AreOverlapping (reg1 reg2 : Region) : Bool :=
  decide (reg1.Start < reg2.End ∧ reg2.Start < reg1.End)

/-- StrongerAffinity (part_003): strictly larger whole-region average wins;
on a tie the alpha conformation wins, with `reg2` as the final fallback. -/
def StrongerAffinity (seq : List Char) (reg1 : Region) (conf1 : String)
    (reg2 : Region) (conf2 : String) : Region :=
  if AverageParam seq reg2 conf2 < AverageParam seq reg1 conf1 then reg1
  else if AverageParam seq reg1 conf1 < AverageParam seq reg2 conf2 then reg2
  else if conf1 = "alpha" then reg1
  else if conf2 = "alpha" then reg2
  else reg2

/-- SolveOverlaps (part_003): keep a region of `regions1` unless some
overlapping region of `regions2` is returned as the winner.  The Go code
records the keep decision in a map keyed by the region value; since the
decision is a pure function of that value, the map-based loop is exactly
this filter (duplicates included). -/
def SolveOverlaps (seq : List Char) (regions1 : List Region) (conf1 : String)
    (regions2 : List Region) (conf2 : String) : List Region :=
  regions1.filter (fun reg1 =>
    ! regions2.any (fun reg2 =>
      AreOverlapping reg1 reg2 &&
        decide (StrongerAffinity seq reg1 conf1 reg2 conf2 = reg2)))

/-- Position `i` lies inside region `r` (used by the painting and coil-fill
loops of part_003, which additionally clip `i` to `[0, seqLen)`). -/
def coversB (r : Region) (i : ℕ) : Bool :=
  decide (r.Start ≤ (i : Int) ∧ (i : Int) < r.End)

/-- The `isPredicted` array of FindCoilRegions (part_003), as a predicate on
positions `i < seqLen`. -/
def isPredicted (alphaFinal betaFinal : List Region) (i : ℕ) : Bool :=
  alphaFinal.any (fun r => coversB r i) || betaFinal.any (fun r => coversB r i)

/-- One iteration of the coil-scan loop of FindCoilRegions (part_003); the
state is the accumulated coil list plus the start of the open run, if any. -/
def coilStep (pred : ℕ → Bool) (st : List Region × Option ℕ) (i : ℕ) :
    List Region × Option ℕ :=
  match st.2 with
  | none => if pred i then st else (st.1, some i)
  | some s => if pred i then (st.1 ++ [⟨(s : Int), (i : Int)⟩], none) else st

/-- FindCoilRegions (part_003): maximal runs of positions not covered by any
alpha or beta region. -/
def FindCoilRegions (seq : List Char) (alphaFinal betaFinal : List Region) :
    List Region :=
  if seq.length = 0 then []
  else
    match (List.range seq.length).foldl (coilStep (isPredicted alphaFinal betaFinal))
        ([], none) with
    | (acc, some s) => acc ++ [⟨(s : Int), (seq.length : Int)⟩]
    | (acc, none) => acc

/-- The loop invariant of the coil scan: after processing positions `< m`,
the accumulated regions cover each unpredicted position `< m` exactly once
(positions of the currently open run excepted) and nothing else. -/
def coilInv (pred : ℕ → Bool) (m : ℕ) : List Region × Option ℕ → Prop
  | (acc, none) =>
    (∀ i : ℕ, i < m → acc.countP (fun r => coversB r i) = if pred i then 0 else 1) ∧
      (∀ i : ℕ, m ≤ i → acc.countP (fun r => coversB r i) = 0)
  | (acc, some s) =>
    s < m ∧ (∀ i : ℕ, s ≤ i → i < m → pred i = false) ∧
      (∀ i : ℕ, i < s → acc.countP (fun r => coversB r i) = if pred i then 0 else 1) ∧
      (∀ i : ℕ, s ≤ i → acc.countP (fun r => coversB r i) = 0)

/-- PredictSequenceFromRegions (part_003): paint beta regions as E, then
alpha regions as H over a C-initialised array.  Painting is per-position and
alpha is painted last, so the character at `i` is H when some alpha region
covers `i`, otherwise E when some beta region covers `i`, otherwise C. -/
def PredictSequenceFromRegions (seq : List Char) (alphaFinal betaFinal : List Region) :
    List Char :=
  (List.range seq.length).map fun i =>
    if alphaFinal.any (fun r => coversB r i) then 'H'
    else if betaFinal.any (fun r => coversB r i) then 'E'
    else 'C'

/-- The classical pipeline of main (part_002), steps 1–7, given the value of
the global SEQUENCE. -/
def ChouFasmanPipeline (seq : List Char) : List Char :=
  let alphaNuc := FindNucleationRegion seq 4 6 1 "alpha"
  let betaNuc := FindNucleationRegion seq 3 5 1 "beta"
  let alphaExt := ExtendedRegions seq alphaNuc "alpha"
  let betaExt := ExtendedRegions seq betaNuc "beta"
  let alphaFil := FilterExtendedRegions seq alphaExt "alpha" (103/100)
  let betaFil := FilterExtendedRegions seq betaExt "beta" (105/100)
  let alphaMerged := MergeOverlappingRegions alphaFil
  let betaMerged := MergeOverlappingRegions betaFil
  let alphaFinal := SolveOverlaps seq alphaMerged "alpha" betaMerged "beta"
  let betaFinal := SolveOverlaps seq betaMerged "beta" alphaMerged "alpha"
  PredictSequenceFromRegions seq alphaFinal betaFinal

/-- Alpha-helix propensity table of the signal-refined variant (part_005,
Jiang et al. folding-type-specific values, `Pa` field). -/
def propPa : Char → Option ℚ := fun c =>
  List.lookup c
    [('A', 102/100), ('R', 98/100), ('N', 67/100), ('D', 101/100), ('C', 70/100),
     ('E', 151/100), ('Q', 111/100), ('G', 57/100), ('H', 100/100), ('I', 108/100),
     ('L', 121/100), ('K', 116/100), ('M', 145/100), ('F', 113/100), ('P', 57/100),
     ('S', 77/100), ('T', 83/100), ('W', 108/100), ('Y', 69/100), ('V', 106/100)]

/-- Beta-strand propensity table of the signal-refined variant (part_005,
`Pb` field). -/
def propPb : Char → Option ℚ := fun c =>
  List.lookup c
    [('A', 83/100), ('R', 93/100), ('N', 89/100), ('D', 54/100), ('C', 119/100),
     ('E', 37/100), ('Q', 110/100), ('G', 75/100), ('H', 87/100), ('I', 160/100),
     ('L', 130/100), ('K', 74/100), ('M', 105/100), ('F', 138/100), ('P', 55/100),
     ('S', 75/100), ('T', 119/100), ('W', 137/100), ('Y', 147/100), ('V', 170/100)]

/-- The `paVals` array of predictStructure (part_006): per-position alpha
propensity, 0 for unmapped residues (and, out of range, for the positions the
Go code never reads). -/
def paVals (seq : List Char) (i : ℕ) : ℚ := (propPa (seq.getD i ' ')).getD 0

/-- Left half of extendBounds (part_006): decrement `left` while `left >= 4`
and the 4-residue window ending at `left` averages at least the threshold.
Each successful step decreases `left`, so fuel `seed` bounds the loop
exactly. -/
def extendLeft (scores : ℕ → ℚ) (threshold : ℚ) : ℕ → ℕ → ℕ
  | 0, left => left
  | fuel + 1, left =>
    if 4 ≤ left then
      if (scores left + scores (left - 1) + scores (left - 2) + scores (left - 3)) / 4 <
          threshold then left
      else extendLeft scores threshold fuel (left - 1)
    else left

/-- Right half of extendBounds (part_006): increment `right` while
`right < n - 4` and the 4-residue window starting at `right` averages at
least the threshold; fuel `n` bounds the loop exactly. -/
def extendRight (scores : ℕ → ℚ) (threshold : ℚ) (n : ℕ) : ℕ → ℕ → ℕ
  | 0, right => right
  | fuel + 1, right =>
    if right < n - 4 then
      if (scores right + scores (right + 1) + scores (right + 2) + scores (right + 3)) / 4 <
          threshold then right
      else extendRight scores threshold n fuel (right + 1)
    else right

/-- extendBounds (part_006): candidate segment bounds grown from a
nucleation seed. -/
def extendBounds (seed n : ℕ) (scores : ℕ → ℚ) (threshold : ℚ) : ℕ × ℕ :=
  (extendLeft scores threshold seed seed, extendRight scores threshold n n seed)

/-- markRegion (part_006): set the entries of a boolean coverage array to
true on the inclusive range `[L, R]` (the program only marks in-bounds
indices). -/
def markRegion (arr : List Bool) (L R : ℕ) : List Bool :=
  arr.mapIdx (fun i b => if L ≤ i ∧ i ≤ R then true else b)

/-- GORModel (GOR/gor.go): window size and three per-offset amino-acid
matrices.  The matrices are total functions on row/column indices; the Go
slices have `WindowSize` rows of width 20 and every access the program makes
is in range. -/
structure GORModel where
  WindowSize : ℕ
  H : ℕ → ℕ → ℚ
  E : ℕ → ℕ → ℚ
  C : ℕ → ℕ → ℚ

/-- sumProfile (GOR/gor.go): total mass of a profile. -/
def sumProfile (profile : List (List ℚ)) : ℚ :=
  (profile.map (fun row => row.sum)).sum

/-- The per-position class score of PredictGOR (GOR/gor.go): sum, over the
window `[i-half, i+half]` clipped to the profile, of the dot product of
`profile[j]` with matrix row `j - i + half` (the inner loop runs over the
width of `profile[i]`, per the Go code). -/
def gorScore (mat : ℕ → ℕ → ℚ) (profile : List (List ℚ)) (half i : ℕ) : ℚ :=
  ((List.range (min (i + half + 1) profile.length - (i - half))).map (fun d =>
    ((List.range (profile.getD i []).length).map (fun k =>
      (profile.getD (i - half + d) []).getD k 0 * mat (i - half + d + half - i) k)).sum)).sum

/-- PredictGOR (GOR/gor.go): for every position take the class of the
strictly greatest score, scanning H then E then C with a strict update. -/
def PredictGOR (model : GORModel) (profile : List (List ℚ)) : List Char :=
  (List.range profile.length).map fun i =>
    if gorScore model.E profile ((model.WindowSize - 1) / 2) i >
        gorScore model.H profile ((model.WindowSize - 1) / 2) i then
      if gorScore model.C profile ((model.WindowSize - 1) / 2) i >
          gorScore model.E profile ((model.WindowSize - 1) / 2) i then 'C' else 'E'
    else
      if gorScore model.C profile ((model.WindowSize - 1) / 2) i >
          gorScore model.H profile ((model.WindowSize - 1) / 2) i then 'C' else 'H'

/-- The accumulation of one training position (TrainGOR inner loops): add
`profile[j]` into `mat` at row `j - i + half`, for every `j` in the clipped
window, iterating `k` over the width of `profile[i]`. -/
def accumPos (mat : ℕ → ℕ → ℚ) (profile : List (List ℚ)) (half i : ℕ) : ℕ → ℕ → ℚ :=
  fun rel k =>
    mat rel k +
      (((List.range (min (i + half + 1) profile.length - (i - half))).map (fun d =>
        if rel = i - half + d + half - i ∧ k < (profile.getD i []).length then
          (profile.getD (i - half + d) []).getD k 0
        else 0)).sum)

/-- The three matrices of a model under training. -/
structure GORMats where
  H : ℕ → ℕ → ℚ
  E : ℕ → ℕ → ℚ
  C : ℕ → ℕ → ℚ

/-- One position of TrainGOR's accumulation phase: pick the class matrix by
the label (after the `C` → `-` replacement, `H` and `E` select their
matrices and everything else is coil) and add the windowed profile rows. -/
def accumAt (m : GORMats) (profile : List (List ℚ)) (label : Char) (half i : ℕ) :
    GORMats :=
  match label with
  | 'H' => ⟨accumPos m.H profile half i, m.E, m.C⟩
  | 'E' => ⟨m.H, accumPos m.E profile half i, m.C⟩
  | _ => ⟨m.H, m.E, accumPos m.C profile half i⟩

/-- The whole accumulation of one training example (TrainGOR): one
`accumAt` per position. -/
def accumExample (m : GORMats) (profile : List (List ℚ)) (ss : List Char)
    (half : ℕ) : GORMats :=
  (List.range profile.length).foldl
    (fun acc i => accumAt acc profile (ss.getD i '-') half i) m

/-- One example of TrainGOR's scan loop: an example whose profile is empty
or has zero total mass is skipped; otherwise a label/profile length mismatch
is a fatal error, and a well-formed example is accumulated. -/
def trainStep (m : GORMats) (profile : List (List ℚ)) (ss : List Char)
    (half : ℕ) : Except String GORMats :=
  if profile.length = 0 ∨ sumProfile profile = 0 then Except.ok m
  else if ss.length ≠ profile.length then Except.error "length mismatch"
  else Except.ok (accumExample m profile ss half)

/-- TrainGOR's example scan over a list of parsed (profile, label) pairs,
aborting on the first fatal example. -/
def trainScan (half : ℕ) : GORMats → List (List (List ℚ) × List Char) →
    Except String GORMats
  | m, [] => Except.ok m
  | m, ex :: rest =>
    match trainStep m ex.1 ex.2 half with
    | Except.ok m2 => trainScan half m2 rest
    | Except.error e => Except.error e

/-- The row-normalization pass of TrainGOR: each row with positive sum is
divided through by its sum; other rows are left untouched.  (The Go loop
touches exactly the `rows × cols` entries of the slice.) -/
def normalizeMat (mat : ℕ → ℕ → ℚ) (rows cols : ℕ) : ℕ → ℕ → ℚ :=
  fun r c =>
    if r < rows ∧ c < cols then
      if 0 < ((List.range cols).map (mat r)).sum then
        mat r c / ((List.range cols).map (mat r)).sum
      else mat r c
    else mat r c

/-- A window-1 model with all-zero matrices, used to instantiate the GOR
theorems on concrete inputs. -/
def gorModel0 : GORModel := ⟨1, fun _ _ => 0, fun _ _ => 0, fun _ _ => 0⟩

/-- All-zero training matrices, used to instantiate the training theorems on
concrete inputs. -/
def mats0 : GORMats := ⟨fun _ _ => 0, fun _ _ => 0, fun _ _ => 0⟩

/-- The all-E test sequence of the end-to-end scenario. -/
def seqE10 : List Char := ['E', 'E', 'E', 'E', 'E', 'E', 'E', 'E', 'E', 'E']

instance : IsTotal Region (fun a b => a.Start ≤ b.Start) :=
  ⟨fun a b => le_total a.Start b.Start⟩

instance : IsTrans Region (fun a b => a.Start ≤ b.Start) :=
  ⟨fun _ _ _ h1 h2 => le_trans h1 h2⟩

lemma mem_seqE10 {c : Char} (h : c ∈ seqE10) : c = 'E' := by
  simpa [seqE10] using h

lemma region_start_mk (a b : Int) : (Region.mk a b).Start = a := rfl

lemma region_end_mk (a b : Int) : (Region.mk a b).End = b := rfl

lemma mem_sliceRunes {seq : List Char} {a b : Int} {c : Char}
    (h : c ∈ sliceRunes seq a b) : c ∈ seq :=
  ((List.drop_sublist _ _).trans (List.take_sublist _ _)).subset h

lemma sliceRunes_length (seq : List Char) {a b : Int} (h0 : 0 ≤ a) (hab : a ≤ b)
    (hb : b ≤ (seq.length : Int)) : (sliceRunes seq a b).length = (b - a).toNat := by
  simp only [sliceRunes, List.length_drop, List.length_take]
  omega

lemma AverageParam_const {seq : List Char} {conf : String} {x : ℚ}
    (h : ∀ c ∈ seq, ConformationParameter c conf = x) (region : Region)
    (h0 : 0 ≤ region.Start) (hab : region.Start < region.End)
    (hb : region.End ≤ (seq.length : Int)) :
    AverageParam seq region conf = x := by
  have hlen : (sliceRunes seq region.Start region.End).length = (region.End - region.Start).toNat :=
    sliceRunes_length seq h0 (le_of_lt hab) hb
  have hne : (sliceRunes seq region.Start region.End).length ≠ 0 := by omega
  unfold AverageParam
  rw [if_neg (by omega), if_neg hne]
  have hmap : (sliceRunes seq region.Start region.End).map
      (fun r => ConformationParameter r conf) =
      List.replicate (sliceRunes seq region.Start region.End).length x := by
    have := List.eq_replicate_of_mem (l :=
      (sliceRunes seq region.Start region.End).map (fun r => ConformationParameter r conf))
      (a := x) (fun y hy => by
        rcases List.mem_map.mp hy with ⟨c, hc, rfl⟩
        exact h c (mem_sliceRunes hc))
    simpa using this
  rw [hmap, List.sum_replicate, nsmul_eq_mul]
  exact mul_div_cancel_left₀ x (Nat.cast_ne_zero.mpr hne)

lemma CP_seqE10_alpha : ∀ c ∈ seqE10, ConformationParameter c "alpha" = 151/100 :=
  fun c hc => by rw [mem_seqE10 hc]; rfl

lemma CP_seqE10_beta : ∀ c ∈ seqE10, ConformationParameter c "beta" = 37/100 :=
  fun c hc => by rw [mem_seqE10 hc]; rfl

lemma avg_seqE10_alpha (region : Region) (h0 : 0 ≤ region.Start)
    (hab : region.Start < region.End) (hb : region.End ≤ 10) :
    AverageParam seqE10 region "alpha" = 151/100 :=
  AverageParam_const CP_seqE10_alpha region h0 hab (by simpa [seqE10] using hb)

lemma avg_seqE10_beta (region : Region) (h0 : 0 ≤ region.Start)
    (hab : region.Start < region.End) (hb : region.End ≤ 10) :
    AverageParam seqE10 region "beta" = 37/100 :=
  AverageParam_const CP_seqE10_beta region h0 hab (by simpa [seqE10] using hb)

lemma isNucleation_seqE10_alpha (region : Region) (h0 : 0 ≤ region.Start)
    (hab : region.Start < region.End) (hb : region.End ≤ 10)
    (hth : 4 ≤ region.End - region.Start) :
    IsNucleationRegion seqE10 region "alpha" 4 1 = true := by
  unfold IsNucleationRegion
  rw [Bool.and_eq_true]
  constructor
  · apply decide_eq_true
    have hcount : (sliceRunes seqE10 region.Start region.End).countP
        (fun residue => decide ((1:ℚ) < ConformationParameter residue "alpha")) =
        (sliceRunes seqE10 region.Start region.End).length :=
      List.countP_eq_length.mpr (fun c hc => by
        rw [CP_seqE10_alpha c (mem_sliceRunes hc)]
        exact decide_eq_true (by norm_num))
    have hlen := sliceRunes_length seqE10 h0 (le_of_lt hab)
      (by simpa [seqE10] using hb)
    omega
  · unfold ConformationHasHigestAverage
    rw [if_pos rfl]
    rw [avg_seqE10_alpha region h0 hab hb, avg_seqE10_beta region h0 hab hb]
    exact decide_eq_true (by norm_num)

lemma isNucleation_seqE10_beta (region : Region) :
    IsNucleationRegion seqE10 region "beta" 3 1 = false := by
  unfold IsNucleationRegion
  have hcount : (sliceRunes seqE10 region.Start region.End).countP
      (fun residue => decide ((1:ℚ) < ConformationParameter residue "beta")) = 0 :=
    List.countP_eq_zero.mpr (fun c hc => by
      rw [CP_seqE10_beta c (mem_sliceRunes hc)]
      simp only [decide_eq_true_eq]
      norm_num)
  rw [hcount]
  simp

lemma nucAlpha_seqE10 : FindNucleationRegion seqE10 4 6 1 "alpha" =
    [⟨0, 6⟩, ⟨1, 7⟩, ⟨2, 8⟩, ⟨3, 9⟩, ⟨4, 10⟩] := by
  unfold FindNucleationRegion
  rw [List.filter_eq_self.mpr]
  · decide
  · intro region hreg
    rcases List.mem_map.mp hreg with ⟨i, hi, rfl⟩
    have hi5 : i < 5 := by
      have := List.mem_range.mp hi
      simpa [seqE10] using this
    exact isNucleation_seqE10_alpha _
      (by simp only [region_start_mk]; omega)
      (by simp only [region_start_mk, region_end_mk]; omega)
      (by simp only [region_end_mk]; omega)
      (by simp only [region_start_mk, region_end_mk]; omega)

lemma nucBeta_seqE10 : FindNucleationRegion seqE10 3 5 1 "beta" = [] := by
  unfold FindNucleationRegion
  exact List.filter_eq_nil_iff.mpr (fun region _ => by
    rw [isNucleation_seqE10_beta region]
    exact Bool.false_ne_true)

lemma extendNCount_seqE10 : ∀ (fuel : ℕ) (s e : Int), s.toNat = fuel → 0 ≤ s →
    s < e → e ≤ 11 → extendNCount seqE10 "alpha" fuel ⟨s, e⟩ = fuel := by
  intro fuel
  induction fuel with
  | zero => intro s e _ _ _ _; rfl
  | succ n ih =>
    intro s e hs h0 hlt he
    unfold extendNCount
    simp only [region_start_mk, region_end_mk]
    rw [if_pos (by omega : (0:Int) ≤ s - 1)]
    rw [if_pos]
    · rw [ih (s - 1) (e - 1) (by omega) (by omega) (by omega) (by omega)]
    · rw [avg_seqE10_alpha ⟨s - 1, e - 1⟩
        (by simp only [region_start_mk]; omega)
        (by simp only [region_start_mk, region_end_mk]; omega)
        (by simp only [region_end_mk]; omega)]
      norm_num

lemma extendCCount_seqE10 : ∀ (fuel : ℕ) (s e : Int), (10 - e).toNat = fuel → -1 ≤ s →
    s < e → e ≤ 10 → extendCCount seqE10 "alpha" fuel ⟨s, e⟩ = fuel := by
  intro fuel
  induction fuel with
  | zero => intro s e _ _ _ _; rfl
  | succ n ih =>
    intro s e hs h0 hlt he
    unfold extendCCount
    simp only [region_start_mk, region_end_mk]
    rw [show ((seqE10.length : Int)) = 10 from rfl]
    rw [if_pos (by omega : e + 1 ≤ (10 : Int))]
    rw [if_pos]
    · rw [ih (s + 1) (e + 1) (by omega) (by omega) (by omega) (by omega)]
    · rw [avg_seqE10_alpha ⟨s + 1, e + 1⟩
        (by simp only [region_start_mk]; omega)
        (by simp only [region_start_mk, region_end_mk]; omega)
        (by simp only [region_end_mk]; omega)]
      norm_num

lemma extAlpha_seqE10 : ExtendedRegions seqE10 [⟨0, 6⟩, ⟨1, 7⟩, ⟨2, 8⟩, ⟨3, 9⟩, ⟨4, 10⟩]
    "alpha" = [⟨0, 10⟩, ⟨0, 10⟩, ⟨0, 10⟩, ⟨0, 10⟩, ⟨0, 10⟩] := by
  unfold ExtendedRegions
  rw [List.map_congr_left (g := fun _ => (⟨0, 10⟩ : Region))]
  · decide
  · intro r hr
    have hval : 0 ≤ r.Start ∧ r.Start ≤ 4 ∧ r.End = r.Start + 6 := by
      fin_cases hr <;> refine ⟨by decide, by decide, by decide⟩
    obtain ⟨hr0, hr4, hre⟩ := hval
    have hn : extendNCount seqE10 "alpha" r.Start.toNat ⟨r.Start, r.Start + 4⟩ =
        r.Start.toNat := extendNCount_seqE10 _ _ _ rfl hr0 (by omega) (by omega)
    have hc : extendCCount seqE10 "alpha" ((seqE10.length : Int) - r.End).toNat
        ⟨r.End - 4, r.End⟩ = ((10 : Int) - r.End).toNat := by
      rw [show ((seqE10.length : Int)) = 10 from rfl]
      exact extendCCount_seqE10 _ _ _ rfl (by omega) (by omega) (by omega)
    rw [hn, hc]
    have : Region.mk (r.Start - (r.Start.toNat : Int))
        (r.End + (((10 : Int) - r.End).toNat : Int)) = ⟨0, 10⟩ := by
      have h1 : r.Start - (r.Start.toNat : Int) = 0 := by omega
      have h2 : r.End + (((10 : Int) - r.End).toNat : Int) = 10 := by omega
      rw [h1, h2]
    exact this

lemma filterAlpha_seqE10 : FilterExtendedRegions seqE10
    [⟨0, 10⟩, ⟨0, 10⟩, ⟨0, 10⟩, ⟨0, 10⟩, ⟨0, 10⟩] "alpha" (103/100) =
    [⟨0, 10⟩, ⟨0, 10⟩, ⟨0, 10⟩, ⟨0, 10⟩, ⟨0, 10⟩] := by
  unfold FilterExtendedRegions
  apply List.filter_eq_self.mpr
  intro r hr
  have hr' : r = ⟨0, 10⟩ := by fin_cases hr <;> rfl
  subst hr'
  rw [avg_seqE10_alpha ⟨0, 10⟩ (by decide) (by decide) (by decide)]
  exact decide_eq_true (by norm_num)

lemma tryMerging_eq_some {i j m : Region} (h : TryMerging i j = some m) :
    j.Start ≤ i.End ∧ m = ⟨min i.Start j.Start, max i.End j.End⟩ := by
  by_cases hc : j.Start ≤ i.End
  · unfold TryMerging at h
    rw [if_pos hc] at h
    exact ⟨hc, (Option.some.inj h).symm⟩
  · unfold TryMerging at h
    rw [if_neg hc] at h
    exact absurd h (by simp)

lemma tryMerging_eq_none {i j : Region} (h : TryMerging i j = none) : i.End < j.Start := by
  by_cases hc : j.Start ≤ i.End
  · unfold TryMerging at h
    rw [if_pos hc] at h
    exact absurd h (by simp)
  · omega

lemma mergeLoop_invariant : ∀ (rest : List Region) (c : Region),
    rest.Pairwise (fun a b => a.Start ≤ b.Start) →
    (∀ x ∈ rest, c.Start ≤ x.Start) →
    (∀ y ∈ mergeLoop c rest, c.Start ≤ y.Start) ∧
      (mergeLoop c rest).Pairwise (fun a b => a.End < b.Start ∧ a.Start ≤ b.Start) := by
  intro rest
  induction rest with
  | nil =>
    intro c _ _
    refine ⟨fun y hy => ?_, by simp [mergeLoop]⟩
    simp only [mergeLoop, List.mem_singleton] at hy
    exact hy ▸ le_refl _
  | cons next rest ih =>
    intro c hpw hc
    have hc_next : c.Start ≤ next.Start := hc next (List.mem_cons_self next rest)
    obtain ⟨hnextrest, hpwrest⟩ := List.pairwise_cons.mp hpw
    cases htm : TryMerging c next with
    | some merged =>
      obtain ⟨hcond, hm⟩ := tryMerging_eq_some htm
      have hmStart : merged.Start = c.Start := by
        rw [hm, region_start_mk]
        exact min_eq_left hc_next
      have hrec := ih merged hpwrest (fun x hx => by
        rw [hmStart]; exact le_trans hc_next (hnextrest x hx))
      simp only [mergeLoop, htm]
      exact ⟨fun y hy => hmStart ▸ hrec.1 y hy, hrec.2⟩
    | none =>
      have hlt : c.End < next.Start := tryMerging_eq_none htm
      have hrec := ih next hpwrest hnextrest
      simp only [mergeLoop, htm]
      constructor
      · intro y hy
        rcases List.mem_cons.mp hy with rfl | hy'
        · exact le_refl _
        · exact le_trans hc_next (hrec.1 y hy')
      · rw [List.pairwise_cons]
        exact ⟨fun y hy => ⟨lt_of_lt_of_le hlt (hrec.1 y hy),
          le_trans hc_next (hrec.1 y hy)⟩, hrec.2⟩

lemma merge_pairwise (regions : List Region) :
    (MergeOverlappingRegions regions).Pairwise
      (fun a b => a.End < b.Start ∧ a.Start ≤ b.Start) := by
  unfold MergeOverlappingRegions
  split_ifs with hlen
  · match regions, hlen with
    | [], _ => exact List.Pairwise.nil
    | [r], _ => exact List.pairwise_singleton _ _
    | a :: b :: t, hlen => exact absurd hlen (by simp)
  · cases hs : List.insertionSort (fun a b => a.Start ≤ b.Start) regions with
    | nil => exact List.Pairwise.nil
    | cons c rest =>
      have hsorted : (c :: rest).Pairwise (fun a b => a.Start ≤ b.Start) := by
        rw [← hs]
        exact List.sorted_insertionSort _ regions
      obtain ⟨h1, h2⟩ := List.pairwise_cons.mp hsorted
      exact (mergeLoop_invariant rest c h2 h1).2

lemma solveOverlaps_mem {seq : List Char} {regions1 regions2 : List Region}
    {conf1 conf2 : String} {r : Region} :
    r ∈ SolveOverlaps seq regions1 conf1 regions2 conf2 ↔
      r ∈ regions1 ∧ ∀ r2 ∈ regions2, AreOverlapping r r2 = true →
        StrongerAffinity seq r conf1 r2 conf2 ≠ r2 := by
  unfold SolveOverlaps
  rw [List.mem_filter]
  refine and_congr_right fun _ => ?_
  rw [Bool.not_eq_true', List.any_eq_false]
  constructor
  · intro hall r2 hr2 hov heq
    exact hall r2 hr2 (by rw [Bool.and_eq_true]; exact ⟨hov, decide_eq_true heq⟩)
  · intro hall r2 hr2 hand
    rw [Bool.and_eq_true] at hand
    exact hall r2 hr2 hand.1 (of_decide_eq_true hand.2)

end Protein2D

open Protein2D

/-- Claim C1: on the 10-residue sequence EEEEEEEEEE, with helix propensity
1.51 and strand propensity 0.37 for E, the classical pipeline (nucleation
window 6 / count 4 / minParam 1.0, extension threshold 1.0, filter 1.03,
merge, conflict resolution against the strand regions, assembly) outputs
HHHHHHHHHH: nucleation windows qualify, extension reaches both bounds, and
filtering keeps the region. -/
theorem C1_end_to_end :
    ChouFasmanPipeline
      ['E', 'E', 'E', 'E', 'E', 'E', 'E', 'E', 'E', 'E'] =
      ['H', 'H', 'H', 'H', 'H', 'H', 'H', 'H', 'H', 'H'] := by
  show ChouFasmanPipeline seqE10 = _
  simp only [ChouFasmanPipeline]
  rw [nucAlpha_seqE10, nucBeta_seqE10, extAlpha_seqE10]
  rw [show ExtendedRegions seqE10 [] "beta" = [] from rfl]
  rw [filterAlpha_seqE10]
  rw [show FilterExtendedRegions seqE10 [] "beta" (105/100) = [] from rfl]
  rw [show MergeOverlappingRegions [⟨0, 10⟩, ⟨0, 10⟩, ⟨0, 10⟩, ⟨0, 10⟩, ⟨0, 10⟩] =
    [(⟨0, 10⟩ : Region)] from by decide]
  rw [show MergeOverlappingRegions ([] : List Region) = [] from rfl]
  rw [show SolveOverlaps seqE10 [(⟨0, 10⟩ : Region)] "alpha" [] "beta" =
    [(⟨0, 10⟩ : Region)] from rfl]
  rw [show SolveOverlaps seqE10 ([] : List Region) "beta" [(⟨0, 10⟩ : Region)] "alpha" =
    [] from rfl]
  decide

/-- Claim C4: merge sorts by start and combines consecutive regions exactly
when `current.End >= next.Start` (non-strict, so abutting `[0,5)` and `[5,8)`
merge into `[0,8)` while `[0,5)` and `[6,8)` stay separate), and the result
is pairwise disjoint and sorted by start. -/
theorem C4_merge :
    MergeOverlappingRegions [⟨0, 5⟩, ⟨5, 8⟩] = [⟨0, 8⟩] ∧
    MergeOverlappingRegions [⟨0, 5⟩, ⟨6, 8⟩] = [⟨0, 5⟩, ⟨6, 8⟩] ∧
    ∀ regions : List Region, (MergeOverlappingRegions regions).Pairwise
      (fun a b => a.End < b.Start ∧ a.Start ≤ b.Start) :=
  ⟨by decide, by decide, merge_pairwise⟩

/-- Claim C5: the nucleation test holds iff at least `windowThreshold`
residues of the window score strictly above `minParam` for the conformation
and the whole-window average dominates the competitor, non-strictly for
alpha and strictly for beta. -/
theorem C5_nucleation (seq : List Char) (region : Region) (t : ℕ) (m : ℚ)
    (conf : String) (h : conf = "alpha" ∨ conf = "beta") :
    IsNucleationRegion seq region conf t m = true ↔
      (t ≤ (sliceRunes seq region.Start region.End).countP
          (fun residue => decide (m < ConformationParameter residue conf)) ∧
        (if conf = "alpha" then
            AverageParam seq region "beta" ≤ AverageParam seq region conf
          else AverageParam seq region "alpha" < AverageParam seq region conf)) := by
  rcases h with rfl | rfl <;>
    simp [IsNucleationRegion, ConformationHasHigestAverage]

/-- Witness for C5 at a concrete input. -/
theorem C5_nucleation_witness :
    IsNucleationRegion ['E'] ⟨0, 1⟩ "alpha" 1 1 = true ↔
      (1 ≤ (sliceRunes ['E'] (Region.mk 0 1).Start (Region.mk 0 1).End).countP
          (fun residue => decide ((1:ℚ) < ConformationParameter residue "alpha")) ∧
        (if "alpha" = "alpha" then
            AverageParam ['E'] ⟨0, 1⟩ "beta" ≤ AverageParam ['E'] ⟨0, 1⟩ "alpha"
          else AverageParam ['E'] ⟨0, 1⟩ "alpha" < AverageParam ['E'] ⟨0, 1⟩ "alpha")) :=
  C5_nucleation ['E'] ⟨0, 1⟩ 1 1 "alpha" (Or.inl rfl)

/-- Claim C3 fails on the code: an alpha region that is interval-equal to its
only overlapping beta competitor is dropped by SolveOverlaps even though its
average propensity is strictly higher, because the Go winner test compares
the returned Region by value with `reg2`. -/
theorem C3_counterexample :
    SolveOverlaps ['E'] [⟨0, 1⟩] "alpha" [⟨0, 1⟩] "beta" = [] ∧
    AreOverlapping ⟨0, 1⟩ ⟨0, 1⟩ = true ∧
    AverageParam ['E'] ⟨0, 1⟩ "beta" < AverageParam ['E'] ⟨0, 1⟩ "alpha" := by
  have ha : AverageParam ['E'] ⟨0, 1⟩ "alpha" = 151/100 :=
    AverageParam_const (fun c hc => by
        rw [show c = 'E' from by simpa using hc]; rfl)
      ⟨0, 1⟩ (by decide) (by decide) (by decide)
  have hb : AverageParam ['E'] ⟨0, 1⟩ "beta" = 37/100 :=
    AverageParam_const (fun c hc => by
        rw [show c = 'E' from by simpa using hc]; rfl)
      ⟨0, 1⟩ (by decide) (by decide) (by decide)
  refine ⟨?_, by decide, by rw [ha, hb]; norm_num⟩
  unfold SolveOverlaps
  simp only [List.filter_cons, List.filter_nil, List.any_cons, List.any_nil,
    StrongerAffinity, ha, hb]
  norm_num [AreOverlapping]

/-- Claim C3 as amended: a region of `setA` survives conflict resolution iff
for every overlapping region of `setB` it strictly wins on average (tie goes
to the helix side), AND it is not interval-equal to that competitor; an
interval-equal overlapping competitor forces a drop regardless of averages,
because the winner is compared to `reg2` by value.  Surviving regions are
kept whole. -/
theorem C3_resolution (seq : List Char) (regions1 regions2 : List Region)
    (conf1 conf2 : String) (r : Region)
    (h : (conf1 = "alpha" ∧ conf2 = "beta") ∨ (conf1 = "beta" ∧ conf2 = "alpha")) :
    r ∈ SolveOverlaps seq regions1 conf1 regions2 conf2 ↔
      r ∈ regions1 ∧ ∀ r2 ∈ regions2, AreOverlapping r r2 = true →
        r ≠ r2 ∧
          (if conf1 = "alpha" then
              AverageParam seq r2 conf2 ≤ AverageParam seq r conf1
            else AverageParam seq r2 conf2 < AverageParam seq r conf1) := by
  rw [solveOverlaps_mem]
  refine and_congr_right fun _ => ?_
  refine forall_congr' fun r2 => forall_congr' fun _ => imp_congr_right fun _ => ?_
  rcases h with ⟨rfl, rfl⟩ | ⟨rfl, rfl⟩
  · unfold StrongerAffinity
    rw [if_pos rfl, if_pos rfl]
    rcases lt_trichotomy (AverageParam seq r "alpha") (AverageParam seq r2 "beta")
      with hlt | heq | hgt
    · rw [if_neg (lt_asymm hlt), if_pos hlt]
      exact iff_of_false (fun hne => hne rfl) (fun hrhs => not_le_of_lt hlt hrhs.2)
    · rw [if_neg (by rw [heq]; exact lt_irrefl _), if_neg (by rw [heq]; exact lt_irrefl _)]
      exact ⟨fun hne => ⟨hne, le_of_eq heq.symm⟩, fun h2 => h2.1⟩
    · rw [if_pos hgt]
      exact ⟨fun hne => ⟨hne, le_of_lt hgt⟩, fun h2 => h2.1⟩
  · have hba : ¬ (("beta" : String) = "alpha") := by decide
    unfold StrongerAffinity
    rw [if_neg hba, if_neg hba, if_pos rfl]
    rcases lt_trichotomy (AverageParam seq r "beta") (AverageParam seq r2 "alpha")
      with hlt | heq | hgt
    · rw [if_neg (lt_asymm hlt), if_pos hlt]
      exact iff_of_false (fun hne => hne rfl) (fun hrhs => lt_asymm hlt hrhs.2)
    · rw [if_neg (by rw [heq]; exact lt_irrefl _), if_neg (by rw [heq]; exact lt_irrefl _)]
      exact iff_of_false (fun hne => hne rfl)
        (fun hrhs => absurd hrhs.2 (by rw [heq]; exact lt_irrefl _))
    · rw [if_pos hgt]
      exact ⟨fun hne => ⟨hne, hgt⟩, fun h2 => h2.1⟩

/-- Witness for C3_resolution at a concrete input. -/
theorem C3_resolution_witness :
    (⟨0, 1⟩ : Region) ∈ SolveOverlaps ['E'] [⟨0, 1⟩] "alpha" [] "beta" ↔
      (⟨0, 1⟩ : Region) ∈ [(⟨0, 1⟩ : Region)] ∧
        ∀ r2 ∈ ([] : List Region), AreOverlapping ⟨0, 1⟩ r2 = true →
          (⟨0, 1⟩ : Region) ≠ r2 ∧
            (if ("alpha" : String) = "alpha" then
                AverageParam ['E'] r2 "beta" ≤ AverageParam ['E'] ⟨0, 1⟩ "alpha"
              else AverageParam ['E'] r2 "beta" < AverageParam ['E'] ⟨0, 1⟩ "alpha") :=
  C3_resolution ['E'] [⟨0, 1⟩] [] "alpha" "beta" ⟨0, 1⟩ (Or.inl ⟨rfl, rfl⟩)

namespace Protein2D

lemma coversB_iff {r : Region} {i : ℕ} :
    coversB r i = true ↔ r.Start ≤ (i : Int) ∧ (i : Int) < r.End := by
  unfold coversB
  exact decide_eq_true_iff

lemma coversB_mk_nat (s m i : ℕ) :
    coversB ⟨(s : Int), (m : Int)⟩ i = decide (s ≤ i ∧ i < m) := by
  unfold coversB
  rw [decide_eq_decide]
  simp only [region_start_mk, region_end_mk]
  omega

lemma coilInv_step (pred : ℕ → Bool) (m : ℕ) (st : List Region × Option ℕ)
    (h : coilInv pred m st) : coilInv pred (m + 1) (coilStep pred st m) := by
  obtain ⟨acc, os⟩ := st
  cases os with
  | none =>
    obtain ⟨h1, h2⟩ := h
    by_cases hp : pred m = true
    · show coilInv pred (m + 1) (if pred m then (acc, none) else (acc, some m))
      rw [if_pos hp]
      refine ⟨fun i hi => ?_, fun i hi => h2 i (by omega)⟩
      by_cases him : i < m
      · exact h1 i him
      · have : i = m := by omega
        subst this
        rw [h2 i (le_refl i), hp]
        simp
    · show coilInv pred (m + 1) (if pred m then (acc, none) else (acc, some m))
      rw [if_neg hp]
      exact ⟨by omega,
        fun i hsi him => by
          have : i = m := by omega
          subst this
          exact Bool.eq_false_iff.mpr hp,
        fun i hi => h1 i hi,
        fun i hi => h2 i hi⟩
  | some s =>
    obtain ⟨hs, hrun, hlt, hge⟩ := h
    by_cases hp : pred m = true
    · show coilInv pred (m + 1)
        (if pred m then (acc ++ [⟨(s : Int), (m : Int)⟩], none) else (acc, some s))
      rw [if_pos hp]
      constructor
      · intro i hi
        rw [List.countP_append, List.countP_cons, List.countP_nil, coversB_mk_nat]
        simp only [decide_eq_true_eq]
        by_cases hi_s : i < s
        · rw [hlt i hi_s, if_neg (by omega : ¬(s ≤ i ∧ i < m))]
          simp
        · by_cases hi_m : i < m
          · rw [hge i (by omega), if_pos (by omega : s ≤ i ∧ i < m),
              hrun i (by omega) hi_m]
            simp
          · have : i = m := by omega
            subst this
            rw [hge i (by omega), if_neg (by omega : ¬(s ≤ i ∧ i < i)), hp]
            simp
      · intro i hi
        rw [List.countP_append, List.countP_cons, List.countP_nil, coversB_mk_nat]
        simp only [decide_eq_true_eq]
        rw [hge i (by omega), if_neg (by omega : ¬(s ≤ i ∧ i < m))]
    · show coilInv pred (m + 1)
        (if pred m then (acc ++ [⟨(s : Int), (m : Int)⟩], none) else (acc, some s))
      rw [if_neg hp]
      refine ⟨by omega, fun i hsi him => ?_, hlt, hge⟩
      by_cases him' : i < m
      · exact hrun i hsi him'
      · have : i = m := by omega
        subst this
        exact Bool.eq_false_iff.mpr hp

lemma coilInv_fold (pred : ℕ → Bool) : ∀ L : ℕ,
    coilInv pred L ((List.range L).foldl (coilStep pred) ([], none)) := by
  intro L
  induction L with
  | zero => exact ⟨fun i hi => absurd hi (by omega), fun i _ => rfl⟩
  | succ n ihn =>
    rw [List.range_succ, List.foldl_append, List.foldl_cons, List.foldl_nil]
    exact coilInv_step pred n _ ihn

lemma findCoil_countP (seq : List Char) (aF bF : List Region) (i : ℕ)
    (hi : i < seq.length) :
    (FindCoilRegions seq aF bF).countP (fun r => coversB r i) =
      if isPredicted aF bF i then 0 else 1 := by
  have hL : ¬ (seq.length = 0) := by omega
  unfold FindCoilRegions
  rw [if_neg hL]
  have hinv := coilInv_fold (isPredicted aF bF) seq.length
  cases hres : (List.range seq.length).foldl (coilStep (isPredicted aF bF)) ([], none) with
  | mk acc os =>
    rw [hres] at hinv
    cases os with
    | none => exact hinv.1 i hi
    | some s =>
      obtain ⟨hs, hrun, hlt, hge⟩ := hinv
      rw [List.countP_append, List.countP_cons, List.countP_nil, coversB_mk_nat]
      simp only [decide_eq_true_eq]
      by_cases hi_s : i < s
      · rw [hlt i hi_s, if_neg (by omega : ¬(s ≤ i ∧ i < seq.length))]
        simp
      · rw [hge i (by omega), if_pos (by omega : s ≤ i ∧ i < seq.length),
          hrun i (by omega) hi]
        simp

lemma no_double_cover (seq : List Char) (a b : List Region) (i : ℕ)
    (ha : (SolveOverlaps seq a "alpha" b "beta").any (fun r => coversB r i) = true)
    (hb : (SolveOverlaps seq b "beta" a "alpha").any (fun r => coversB r i) = true) :
    False := by
  rcases List.any_eq_true.mp ha with ⟨rA, hrA, hcovA⟩
  rcases List.any_eq_true.mp hb with ⟨rB, hrB, hcovB⟩
  rw [solveOverlaps_mem] at hrA hrB
  obtain ⟨hA1, hA2⟩ := coversB_iff.mp hcovA
  obtain ⟨hB1, hB2⟩ := coversB_iff.mp hcovB
  have hov : AreOverlapping rA rB = true := by
    unfold AreOverlapping
    exact decide_eq_true ⟨lt_of_le_of_lt hA1 hB2, lt_of_le_of_lt hB1 hA2⟩
  have hovBA : AreOverlapping rB rA = true := by
    unfold AreOverlapping
    exact decide_eq_true ⟨lt_of_le_of_lt hB1 hA2, lt_of_le_of_lt hA1 hB2⟩
  have hSA1 := hrA.2 rB hrB.1 hov
  have hSA2 := hrB.2 rA hrA.1 hovBA
  unfold StrongerAffinity at hSA1 hSA2
  rcases lt_trichotomy (AverageParam seq rA "alpha") (AverageParam seq rB "beta")
    with hcmp | hcmp | hcmp
  · rw [if_neg (lt_asymm hcmp), if_pos hcmp] at hSA1
    exact hSA1 rfl
  · rw [if_neg (by rw [hcmp]; exact lt_irrefl _), if_neg (by rw [hcmp]; exact lt_irrefl _),
      if_neg (by decide : ¬ (("beta" : String) = "alpha")), if_pos rfl] at hSA2
    exact hSA2 rfl
  · rw [if_neg (lt_asymm hcmp), if_pos hcmp] at hSA2
    exact hSA2 rfl

end Protein2D

/-- Claim C2: for every sequence and every pair of input region sets, after
the two conflict-resolution calls of the pipeline and coil-fill, each
position `i < L` lies in exactly one of the three sets: no position is
covered by both a surviving alpha and a surviving beta region, a position
covered by neither lies in exactly one coil region, and a covered position
lies in no coil region. -/
theorem C2_total_coverage (seq : List Char) (a b : List Region) (i : ℕ)
    (hi : i < seq.length) :
    ¬ ((SolveOverlaps seq a "alpha" b "beta").any (fun r => coversB r i) = true ∧
        (SolveOverlaps seq b "beta" a "alpha").any (fun r => coversB r i) = true) ∧
      (FindCoilRegions seq (SolveOverlaps seq a "alpha" b "beta")
          (SolveOverlaps seq b "beta" a "alpha")).countP (fun r => coversB r i) =
        (if (SolveOverlaps seq a "alpha" b "beta").any (fun r => coversB r i) = true ∨
            (SolveOverlaps seq b "beta" a "alpha").any (fun r => coversB r i) = true
          then 0 else 1) := by
  constructor
  · rintro ⟨ha, hb⟩
    exact no_double_cover seq a b i ha hb
  · rw [findCoil_countP _ _ _ i hi]
    congr 1
    unfold isPredicted
    rw [Bool.or_eq_true]

/-- Witness for C2 at a concrete input. -/
theorem C2_total_coverage_witness :
    ¬ ((SolveOverlaps ['E'] [] "alpha" [] "beta").any (fun r => coversB r 0) = true ∧
        (SolveOverlaps ['E'] [] "beta" [] "alpha").any (fun r => coversB r 0) = true) ∧
      (FindCoilRegions ['E'] (SolveOverlaps ['E'] [] "alpha" [] "beta")
          (SolveOverlaps ['E'] [] "beta" [] "alpha")).countP (fun r => coversB r 0) =
        (if (SolveOverlaps ['E'] [] "alpha" [] "beta").any (fun r => coversB r 0) = true ∨
            (SolveOverlaps ['E'] [] "beta" [] "alpha").any (fun r => coversB r 0) = true
          then 0 else 1) :=
  C2_total_coverage ['E'] [] [] 0 (by decide)

namespace Protein2D

lemma getD_map_range {α : Type} (n : ℕ) (f : ℕ → α) (i : ℕ) (d : α) (h : i < n) :
    ((List.range n).map f).getD i d = f i := by
  rw [List.getD_eq_getElem?_getD, List.getElem?_map, List.getElem?_range h]
  rfl

lemma sum_eq_zero_nonneg : ∀ l : List ℚ, (∀ x ∈ l, 0 ≤ x) → l.sum = 0 → ∀ x ∈ l, x = 0 := by
  intro l
  induction l with
  | nil => intro _ _ x hx; cases hx
  | cons a t ih =>
    intro hn hs x hx
    have ha : 0 ≤ a := hn a (List.mem_cons_self a t)
    have ht : 0 ≤ t.sum := List.sum_nonneg (fun y hy => hn y (List.mem_cons_of_mem _ hy))
    rw [List.sum_cons] at hs
    have ha0 : a = 0 := by linarith
    have hts : t.sum = 0 := by linarith
    rcases List.mem_cons.mp hx with rfl | hx'
    · exact ha0
    · exact ih (fun y hy => hn y (List.mem_cons_of_mem _ hy)) hts x hx'

lemma length_zero_sumProfile {profile : List (List ℚ)} (h : profile.length = 0) :
    sumProfile profile = 0 := by
  rw [List.length_eq_zero.mp h]
  rfl

end Protein2D

/-- Claim C6: prediction over the empty profile is empty; otherwise the
output has the profile's length and position `i` carries the class with the
strictly greatest clipped-window score, ties resolved in the evaluation
order Helix > Strand > Coil (a later class takes over only with a strictly
greater score); with all three scores equal the label is Helix. -/
theorem C6_predict (model : GORModel) :
    PredictGOR model [] = [] ∧
    ∀ profile : List (List ℚ), (PredictGOR model profile).length = profile.length ∧
      ∀ i : ℕ, i < profile.length →
        (((PredictGOR model profile).getD i 'X' = 'H' ↔
            gorScore model.E profile ((model.WindowSize - 1) / 2) i ≤
              gorScore model.H profile ((model.WindowSize - 1) / 2) i ∧
            gorScore model.C profile ((model.WindowSize - 1) / 2) i ≤
              gorScore model.H profile ((model.WindowSize - 1) / 2) i) ∧
          ((PredictGOR model profile).getD i 'X' = 'E' ↔
            gorScore model.H profile ((model.WindowSize - 1) / 2) i <
              gorScore model.E profile ((model.WindowSize - 1) / 2) i ∧
            gorScore model.C profile ((model.WindowSize - 1) / 2) i ≤
              gorScore model.E profile ((model.WindowSize - 1) / 2) i) ∧
          ((PredictGOR model profile).getD i 'X' = 'C' ↔
            gorScore model.H profile ((model.WindowSize - 1) / 2) i <
              gorScore model.C profile ((model.WindowSize - 1) / 2) i ∧
            gorScore model.E profile ((model.WindowSize - 1) / 2) i <
              gorScore model.C profile ((model.WindowSize - 1) / 2) i)) := by
  refine ⟨rfl, fun profile => ⟨by simp [PredictGOR], fun i hi => ?_⟩⟩
  have hget : (PredictGOR model profile).getD i 'X' =
      (if gorScore model.E profile ((model.WindowSize - 1) / 2) i >
          gorScore model.H profile ((model.WindowSize - 1) / 2) i then
        if gorScore model.C profile ((model.WindowSize - 1) / 2) i >
            gorScore model.E profile ((model.WindowSize - 1) / 2) i then 'C' else 'E'
      else
        if gorScore model.C profile ((model.WindowSize - 1) / 2) i >
            gorScore model.H profile ((model.WindowSize - 1) / 2) i then 'C' else 'H') :=
    getD_map_range profile.length _ i 'X' hi
  rw [hget]
  split_ifs with h1 h2 h3
  · exact ⟨iff_of_false (by decide) (fun hr => not_lt_of_le hr.1 h1),
      iff_of_false (by decide) (fun hr => not_lt_of_le hr.2 h2),
      iff_of_true rfl ⟨lt_trans h1 h2, h2⟩⟩
  · exact ⟨iff_of_false (by decide) (fun hr => not_lt_of_le hr.1 h1),
      iff_of_true rfl ⟨h1, le_of_not_lt h2⟩,
      iff_of_false (by decide) (fun hr => h2 hr.2)⟩
  · exact ⟨iff_of_false (by decide) (fun hr => not_lt_of_le hr.2 h3),
      iff_of_false (by decide) (fun hr => h1 hr.1),
      iff_of_true rfl ⟨h3, lt_of_le_of_lt (le_of_not_lt h1) h3⟩⟩
  · exact ⟨iff_of_true rfl ⟨le_of_not_lt h1, le_of_not_lt h3⟩,
      iff_of_false (by decide) (fun hr => h1 hr.1),
      iff_of_false (by decide) (fun hr => h3 hr.1)⟩

/-- Witness for C6 at a concrete input. -/
theorem C6_predict_witness :
    (PredictGOR gorModel0 [[1]]).getD 0 'X' = 'H' ↔
      gorScore gorModel0.E [[1]] ((gorModel0.WindowSize - 1) / 2) 0 ≤
        gorScore gorModel0.H [[1]] ((gorModel0.WindowSize - 1) / 2) 0 ∧
      gorScore gorModel0.C [[1]] ((gorModel0.WindowSize - 1) / 2) 0 ≤
        gorScore gorModel0.H [[1]] ((gorModel0.WindowSize - 1) / 2) 0 :=
  (((C6_predict gorModel0).2 [[1]]).2 0 (by decide)).1

/-- Claim C7: a training example whose profile has total mass exactly zero is
skipped silently (the state is returned unchanged, also at the scan level),
and zero mass is the only silent skip: any other example either aborts with
the length-mismatch error or is accumulated. -/
theorem C7_train_skip (m : GORMats) (profile : List (List ℚ)) (ss : List Char)
    (half : ℕ) :
    (sumProfile profile = 0 → trainStep m profile ss half = Except.ok m) ∧
    (sumProfile profile = 0 → ∀ rest, trainScan half m ((profile, ss) :: rest) =
      trainScan half m rest) ∧
    (sumProfile profile ≠ 0 →
      (ss.length ≠ profile.length →
        trainStep m profile ss half = Except.error "length mismatch") ∧
      (ss.length = profile.length →
        trainStep m profile ss half = Except.ok (accumExample m profile ss half))) := by
  have hstep : sumProfile profile = 0 → trainStep m profile ss half = Except.ok m := by
    intro hs
    unfold trainStep
    rw [if_pos (Or.inr hs)]
  refine ⟨hstep, fun hs rest => ?_, fun hs => ⟨fun hmm => ?_, fun hmm => ?_⟩⟩
  · show (match trainStep m profile ss half with
      | Except.ok m2 => trainScan half m2 rest
      | Except.error e => Except.error e) = trainScan half m rest
    rw [hstep hs]
  · have hcond : ¬ (profile.length = 0 ∨ sumProfile profile = 0) := by
      rintro (h0 | h0)
      · exact hs (length_zero_sumProfile h0)
      · exact hs h0
    unfold trainStep
    rw [if_neg hcond, if_pos hmm]
  · have hcond : ¬ (profile.length = 0 ∨ sumProfile profile = 0) := by
      rintro (h0 | h0)
      · exact hs (length_zero_sumProfile h0)
      · exact hs h0
    unfold trainStep
    rw [if_neg hcond, if_neg (by omega)]

/-- Witness for C7 at a concrete input. -/
theorem C7_train_skip_witness :
    trainStep mats0 [] ['H'] 8 = Except.ok mats0 :=
  (C7_train_skip mats0 [] ['H'] 8).1 rfl

/-- Claim C8: a matrix row whose accumulated total weight is zero is left
untouched by normalization (the division is guarded, no uniform fallback)
and, entries being accumulations of non-negative profile mass, such a row is
all-zero; rows with positive total weight are divided through by their
sum. -/
theorem C8_normalize (mat : ℕ → ℕ → ℚ) (rows cols r : ℕ) :
    (((List.range cols).map (mat r)).sum = 0 →
      (∀ c : ℕ, normalizeMat mat rows cols r c = mat r c) ∧
      ((∀ k, k < cols → 0 ≤ mat r k) → ∀ c, c < cols → mat r c = 0)) ∧
    (0 < ((List.range cols).map (mat r)).sum →
      ∀ c : ℕ, r < rows → c < cols →
        normalizeMat mat rows cols r c =
          mat r c / ((List.range cols).map (mat r)).sum) := by
  constructor
  · intro hsum
    constructor
    · intro c
      unfold normalizeMat
      split_ifs with h1 h2
      · exact absurd h2 (by rw [hsum]; exact lt_irrefl 0)
      · rfl
      · rfl
    · intro hnn c hc
      have hmem : mat r c ∈ (List.range cols).map (mat r) :=
        List.mem_map.mpr ⟨c, List.mem_range.mpr hc, rfl⟩
      exact sum_eq_zero_nonneg _
        (fun x hx => by
          rcases List.mem_map.mp hx with ⟨k, hk, rfl⟩
          exact hnn k (List.mem_range.mp hk))
        hsum _ hmem
  · intro hpos c hr hc
    unfold normalizeMat
    rw [if_pos ⟨hr, hc⟩, if_pos hpos]

/-- Witness for C8 at a concrete input. -/
theorem C8_normalize_witness :
    normalizeMat (fun _ _ => (0:ℚ)) 1 1 0 0 = 0 :=
  ((C8_normalize (fun _ _ => (0:ℚ)) 1 1 0).1 (by simp)).1 0

namespace Protein2D

lemma paVals_seqE10 (i : ℕ) (hi : i < 10) : paVals seqE10 i = 151/100 := by
  interval_cases i <;> rfl

lemma extendLeft_uniform (scores : ℕ → ℚ) (θ v : ℚ)
    (hv : ¬ ((v + v + v + v) / 4 < θ)) :
    ∀ (fuel left : ℕ), left ≤ fuel + 3 → (∀ i, i ≤ left → scores i = v) →
      extendLeft scores θ fuel left = min left 3 := by
  intro fuel
  induction fuel with
  | zero =>
    intro left hle _
    unfold extendLeft
    omega
  | succ n ih =>
    intro left hle hs
    unfold extendLeft
    by_cases h4 : 4 ≤ left
    · rw [if_pos h4, hs left (le_refl _), hs (left - 1) (by omega),
        hs (left - 2) (by omega), hs (left - 3) (by omega), if_neg hv,
        ih (left - 1) (by omega) (fun i hi => hs i (by omega))]
      omega
    · rw [if_neg h4]
      omega

lemma extendRight_uniform (scores : ℕ → ℚ) (θ v : ℚ) (n : ℕ)
    (hv : ¬ ((v + v + v + v) / 4 < θ)) :
    ∀ (fuel right : ℕ), n - 4 ≤ right + fuel → (∀ i, i < n → scores i = v) →
      extendRight scores θ n fuel right = max right (n - 4) := by
  intro fuel
  induction fuel with
  | zero =>
    intro right hle _
    unfold extendRight
    omega
  | succ m ih =>
    intro right hle hs
    unfold extendRight
    by_cases h4 : right < n - 4
    · rw [if_pos h4, hs right (by omega), hs (right + 1) (by omega),
        hs (right + 2) (by omega), hs (right + 3) (by omega), if_neg hv,
        ih (right + 1) (by omega) hs]
      omega
    · rw [if_neg h4]
      omega

lemma extendLeft_ge (scores : ℕ → ℚ) (θ : ℚ) :
    ∀ (fuel left : ℕ), 3 ≤ left → 3 ≤ extendLeft scores θ fuel left := by
  intro fuel
  induction fuel with
  | zero => intro left h3; unfold extendLeft; omega
  | succ n ih =>
    intro left h3
    unfold extendLeft
    by_cases h4 : 4 ≤ left
    · rw [if_pos h4]
      by_cases hw : (scores left + scores (left - 1) + scores (left - 2) +
          scores (left - 3)) / 4 < θ
      · rw [if_pos hw]; omega
      · rw [if_neg hw]; exact ih (left - 1) (by omega)
    · rw [if_neg h4]; omega

lemma extendRight_le (scores : ℕ → ℚ) (θ : ℚ) (n : ℕ) :
    ∀ (fuel right : ℕ), extendRight scores θ n fuel right ≤ max right (n - 4) := by
  intro fuel
  induction fuel with
  | zero => intro right; unfold extendRight; omega
  | succ m ih =>
    intro right
    unfold extendRight
    by_cases h4 : right < n - 4
    · rw [if_pos h4]
      by_cases hw : (scores right + scores (right + 1) + scores (right + 2) +
          scores (right + 3)) / 4 < θ
      · rw [if_pos hw]; omega
      · rw [if_neg hw]
        have := ih (right + 1)
        omega
    · rw [if_neg h4]; omega

lemma extSingle_5_6 : ExtendedRegions seqE10 [⟨5, 6⟩] "alpha" = [⟨0, 10⟩] := by
  simp only [ExtendedRegions, List.map_cons, List.map_nil, region_start_mk, region_end_mk]
  rw [show ((5 : Int)).toNat = 5 from rfl,
    show (((seqE10.length : Int)) - 6).toNat = 4 from rfl,
    extendNCount_seqE10 5 5 (5 + 4) rfl (by norm_num) (by norm_num) (by norm_num),
    extendCCount_seqE10 4 (6 - 4) 6 rfl (by norm_num) (by norm_num) (by norm_num)]
  norm_num

end Protein2D

/-- Claim C9 fails on the code: from seed 5 in the all-E 10-residue sequence
(uniform alpha propensity 1.51), the signal-refined extension marks only
positions 3..6 (left stops at the `left >= 4` guard, right at the
`right < n - 4` guard) while the classical §4.2 extension of a region seeded
there reaches both sequence bounds and covers position 0; the coverage the
booleans record is not the classical coverage. -/
theorem C9_counterexample :
    extendBounds 5 10 (paVals seqE10) 1 = (3, 6) ∧
    ExtendedRegions seqE10 [⟨5, 6⟩] "alpha" = [⟨0, 10⟩] ∧
    (markRegion (List.replicate 10 false) 3 6).getD 0 false = false ∧
    coversB ⟨0, 10⟩ 0 = true := by
  refine ⟨?_, extSingle_5_6, by decide, by decide⟩
  unfold extendBounds
  rw [extendLeft_uniform (paVals seqE10) 1 (151/100) (by norm_num) 5 5 (by omega)
      (fun i hi => paVals_seqE10 i (by omega)),
    extendRight_uniform (paVals seqE10) 1 (151/100) 10 (by norm_num) 10 5 (by omega)
      (fun i hi => paVals_seqE10 i hi)]
  rfl

/-- Claim C9 as amended: the signal-refined extension applies a 4-residue
average threshold test anchored at the moving boundary (trailing window
ending at `left`, leading window starting at `right`) under the guards
`left >= 4` and `right < n - 4`, so the left bound never drops below 3 when
the seed is at least 4, the right bound never exceeds `max seed (n - 4)`,
and a seed whose own trailing window already misses the threshold is not
extended left at all; these guards and anchors differ from the classical
§4.2 extension, whose coverage the marked positions therefore need not
match. -/
theorem C9_extension (scores : ℕ → ℚ) (θ : ℚ) (seed n : ℕ) :
    (4 ≤ seed → 3 ≤ (extendBounds seed n scores θ).1) ∧
    (extendBounds seed n scores θ).2 ≤ max seed (n - 4) ∧
    (4 ≤ seed →
      (scores seed + scores (seed - 1) + scores (seed - 2) + scores (seed - 3)) / 4 < θ →
      (extendBounds seed n scores θ).1 = seed) := by
  refine ⟨fun h4 => extendLeft_ge scores θ seed seed (by omega),
    extendRight_le scores θ n n seed, fun h4 hw => ?_⟩
  obtain ⟨f, rfl⟩ : ∃ f, seed = f + 1 := ⟨seed - 1, by omega⟩
  show extendLeft scores θ (f + 1) (f + 1) = f + 1
  unfold extendLeft
  rw [if_pos h4, if_pos hw]

/-- Witness for C9_extension at a concrete input. -/
theorem C9_extension_witness :
    3 ≤ (extendBounds 5 10 (paVals seqE10) 2).1 ∧
    (extendBounds 5 10 (paVals seqE10) 2).1 = 5 :=
  ⟨(C9_extension (paVals seqE10) 2 5 10).1 (by norm_num),
    (C9_extension (paVals seqE10) 2 5 10).2.2 (by norm_num)
      (by norm_num [paVals_seqE10])⟩

/-- Claim C10 fails on the code: AverageParam reads the package-global
SEQUENCE (modelled here as its explicit first argument), so two process
states that agree on the operation's explicit Go arguments (the region and
the conformation) but hold different SEQUENCE values return different
results. -/
theorem C10_counterexample :
    AverageParam ['E'] ⟨0, 1⟩ "alpha" ≠ AverageParam ['V'] ⟨0, 1⟩ "alpha" := by
  have h1 : AverageParam ['E'] ⟨0, 1⟩ "alpha" = 151/100 :=
    AverageParam_const (fun c hc => by
        rw [show c = 'E' from by simpa using hc]; rfl)
      ⟨0, 1⟩ (by decide) (by decide) (by decide)
  have h2 : AverageParam ['V'] ⟨0, 1⟩ "alpha" = 106/100 :=
    AverageParam_const (fun c hc => by
        rw [show c = 'V' from by simpa using hc]; rfl)
      ⟨0, 1⟩ (by decide) (by decide) (by decide)
  rw [h1, h2]
  norm_num

/-- Claim C10 as amended: the classical region-algebra operations depend on
the ambient SEQUENCE global rather than only on their explicit arguments:
with the region and conformation fixed, AverageParam evaluates to 1.51 when
the process-global sequence is "E" and to 1.06 when it is "V". -/
theorem C10_global_dependence :
    AverageParam ['E'] ⟨0, 1⟩ "alpha" = 151/100 ∧
    AverageParam ['V'] ⟨0, 1⟩ "alpha" = 106/100 :=
  ⟨AverageParam_const (fun c hc => by
      rw [show c = 'E' from by simpa using hc]; rfl)
    ⟨0, 1⟩ (by decide) (by decide) (by decide),
  AverageParam_const (fun c hc => by
      rw [show c = 'V' from by simpa using hc]; rfl)
    ⟨0, 1⟩ (by decide) (by decide) (by decide)⟩
